import Mathlib

/-
Verification development for the GEO-Protocol gns-observers-chain repository.

The Go sources are shallowly embedded:
 - bytes are Nat values, byte strings are List Nat;
 - Go machine integers are Nat / Int with explicit reductions modulo 2^16 / 2^64
   where overflow can occur;
 - time.Time values are Int nanoseconds since a fixed origin;
 - Go maps are association lists with map-like lookup / store / delete;
 - fallible Go functions return a pair with an Option error, or an Except value.
-/

set_option maxRecDepth 40000

namespace GNS

/-- Modelled from the spec: common.ObserversMaxCount / settings.ObserversMaxCount
(the `settings` and `common` packages are not in the provided sources);
the spec fixes the constant to 1024. -/
def ObserversMaxCount : Nat := 1024

/-- Modelled from the spec: settings.KObserversMaxCount, the length of the
approval vector of a pool record; equal to `ObserversMaxCount`. -/
def KObserversMaxCount : Nat := 1024

/-- timer.go: kInitialTimeFrameIndex = math.MaxUint16, the pre-sync sentinel. -/
def kInitialTimeFrameIndex : Nat := 65535

/-- Reduction of an Int to the corresponding Go uint64 value (two's complement
representative in [0, 2^64)), as performed by a Go uint64(...) conversion. -/
def toUInt64 (x : Int) : Nat := (x % (18446744073709551616 : Int)).toNat

/-- Signed wrap-around of an Int to the Go int64 range, as performed by Go
int64 arithmetic and int64(...) conversions. -/
def toInt64 (x : Int) : Int :=
  (x + 9223372036854775808) % 18446744073709551616 - 9223372036854775808

-- ---------------------------------------------------------------------------
-- core/chain/pool/pool.go
-- ---------------------------------------------------------------------------

/-- Errors of the `errors` package used by the pool (only the kinds the pool
code can produce are modelled). `marshalFailed` stands for whatever error the
instance's own MarshalBinary returned. -/
inductive PoolErr
  | notFound
  | collision
  | marshalFailed
deriving DecidableEq

/-- The pool's `instance` interface: an entity with a fallible binary
serialisation. Its MarshalBinary result is embedded as a fixed field
(`none` = the marshalling error path). -/
structure PoolInstance where
  marshalResult : Option (List Nat)
deriving DecidableEq

/-- pool.go Record: the pooled artifact, its approval vector
([KObserversMaxCount]bool) and the last-sync timestamp. -/
structure Record where
  Instance : PoolInstance
  Approves : List Bool
  LastSyncAttempt : Int
deriving DecidableEq

/-- The vote loop of Record.IsMajorityApprovesCollected: walk the approval
vector carrying both counters, returning early on either threshold
(`negativeThreshold` is ObserversMaxCount - ObserversConsensusCount). -/
def approvesLoop (consensusCount negativeThreshold : Nat) :
    List Bool → Nat → Nat → Bool
  | [], _, _ => false
  | vote :: rest, pos, neg =>
    if vote then
      if pos + 1 ≥ consensusCount then true
      else approvesLoop consensusCount negativeThreshold rest (pos + 1) neg
    else
      if neg + 1 ≥ negativeThreshold then false
      else approvesLoop consensusCount negativeThreshold rest pos (neg + 1)

/-- pool.go Record.IsMajorityApprovesCollected. The two configured constants
settings.ObserversConsensusCount and settings.ObserversMaxCount are not in the
provided sources and are passed as parameters (modelled from the spec: the
consensus count is strictly greater than ObserversMaxCount / 2). -/
def Record.IsMajorityApprovesCollected
    (consensusCount maxCount : Nat) (r : Record) : Bool :=
  approvesLoop consensusCount (maxCount - consensusCount) r.Approves 0 0

/-- Lookup in the pool's index map (Go map read). -/
def indexFind : List (List Nat × Record) → List Nat → Option Record
  | [], _ => none
  | (k, r) :: rest, key => if k = key then some r else indexFind rest key

/-- Deletion from the pool's index map (Go `delete`). -/
def indexErase : List (List Nat × Record) → List Nat → List (List Nat × Record)
  | [], _ => []
  | (k, r) :: rest, key =>
    if k = key then indexErase rest key else (k, r) :: indexErase rest key

/-- pool.go Pool: the index map from 32-byte SHA-256 keys to records,
embedded as an association list. -/
structure Pool where
  index : List (List Nat × Record)
deriving DecidableEq

/-- pool.go NewPool. -/
def NewPool : Pool := ⟨[]⟩

/-- pool.go Pool.ByHash. -/
def Pool.ByHash (pool : Pool) (h : List Nat) : Except PoolErr Record :=
  match indexFind pool.index h with
  | none => .error .notFound
  | some r => .ok r

/-- pool.go Pool.Add. `sha256` is the external hash.NewSHA256Container
primitive (a spec non-goal, consumed through its interface only), passed as a
function parameter. Returns the new pool together with Go's named returns
(record, err). A fresh Record carries the zero-valued approval vector and
zero timestamp. -/
def Pool.Add (sha256 : List Nat → List Nat) (pool : Pool)
    (inst : PoolInstance) : Pool × Option Record × Option PoolErr :=
  match inst.marshalResult with
  | none => (pool, none, some .marshalFailed)
  | some data =>
    let key := sha256 data
    match indexFind pool.index key with
    | some _ => (pool, none, some .collision)
    | none =>
      let r : Record := ⟨inst, List.replicate KObserversMaxCount false, 0⟩
      (⟨(key, r) :: pool.index⟩, some r, none)

/-- pool.go Pool.Remove. -/
def Pool.Remove (pool : Pool) (h : List Nat) : Pool :=
  ⟨indexErase pool.index h⟩

-- ---------------------------------------------------------------------------
-- C1
-- ---------------------------------------------------------------------------

/-- A spec-compliant configuration (consensus 513 of 1024) and an approval
vector holding 513 positives, none of which is reached before 511 negatives. -/
def c1Vector : List Bool := List.replicate 511 false ++ List.replicate 513 true

/-- C1. Counterexample: with ConsensusCount = 513 and ObserversMaxCount = 1024
(513 > 1024 / 2 as the spec requires), a vector with 513 ≥ ConsensusCount true
entries is reported NOT approved when 511 false entries precede them, because
the negative early exit (negatives ≥ MaxCount - ConsensusCount = 511) fires
first: the positions of the true entries do matter. -/
theorem record_majority_counterexample :
    512 < 513 ∧
    513 ≤ c1Vector.count true ∧
    Record.IsMajorityApprovesCollected 513 1024 ⟨⟨none⟩, c1Vector, 0⟩ = false := by
  refine ⟨by norm_num, by decide, by decide⟩

theorem approvesLoop_true (c nT : Nat) :
    ∀ (l : List Bool) (pos neg : Nat),
      pos < c → c ≤ pos + l.count true → neg + l.count false < nT →
      approvesLoop c nT l pos neg = true := by
  intro l
  induction l with
  | nil =>
    intro pos neg h1 h2 h3
    simp at h2
    omega
  | cons v rest ih =>
    intro pos neg h1 h2 h3
    cases v with
    | true =>
      simp [List.count_cons] at h2 h3
      by_cases hc : pos + 1 ≥ c
      · simp [approvesLoop, hc]
      · simp only [approvesLoop, if_true, hc, if_false]
        exact ih (pos + 1) neg (by omega) (by omega) (by omega)
    | false =>
      simp [List.count_cons] at h2 h3
      have hn : ¬ (neg + 1 ≥ nT) := by omega
      simp only [approvesLoop, Bool.false_eq_true, if_false, hn]
      exact ih pos (neg + 1) h1 (by omega) (by omega)

/-- C1 (amended). For a full-length approval vector, strictly more than
ConsensusCount true entries force the approved verdict regardless of the
positions of the entries: the false entries then stay strictly below the
negative early-exit threshold ObserversMaxCount - ConsensusCount, so the scan
reaches ConsensusCount positives. (With exactly ConsensusCount positives the
verdict depends on the positions, as the counterexample shows.) -/
theorem record_majority_of_gt_consensus (consensusCount : Nat) (r : Record)
    (hc : 512 < consensusCount)
    (hlen : r.Approves.length = 1024)
    (hcnt : consensusCount < r.Approves.count true) :
    Record.IsMajorityApprovesCollected consensusCount 1024 r = true := by
  have hsum : r.Approves.count true + r.Approves.count false = 1024 := by
    have h1 : r.Approves.count true + r.Approves.count false
        = r.Approves.length := by
      induction r.Approves with
      | nil => simp
      | cons v rest ih =>
        cases v <;> simp [List.count_cons] <;> omega
    rw [hlen] at h1
    exact h1
  have htle : r.Approves.count true ≤ 1024 := by omega
  exact approvesLoop_true consensusCount (1024 - consensusCount) r.Approves 0 0
    (by omega) (by omega) (by omega)

/-- C1 witness: 514 positives behind 510 negatives are approved under the
513-of-1024 configuration. -/
theorem record_majority_of_gt_consensus_witness :
    Record.IsMajorityApprovesCollected 513 1024
      ⟨⟨none⟩, List.replicate 510 false ++ List.replicate 514 true, 0⟩ = true :=
  record_majority_of_gt_consensus 513
    ⟨⟨none⟩, List.replicate 510 false ++ List.replicate 514 true, 0⟩
    (by norm_num) (by decide) (by decide)

-- ---------------------------------------------------------------------------
-- C2
-- ---------------------------------------------------------------------------

/-- C2. A second Pool.Add of an instance whose marshalled form is
byte-identical to an already (successfully) added one returns the Collision
error, a nil record, and leaves the pool mapping exactly as it was after the
first call: no record is replaced and no approval vector is reset. -/
theorem pool_add_collision (sha256 : List Nat → List Nat) (p p1 : Pool)
    (a b : PoolInstance) (r : Record) (d : List Nat)
    (ha : a.marshalResult = some d) (hb : b.marshalResult = some d)
    (hadd : Pool.Add sha256 p a = (p1, some r, none)) :
    Pool.Add sha256 p1 b = (p1, none, some .collision) := by
  simp only [Pool.Add, ha] at hadd
  cases hfind : indexFind p.index (sha256 d) with
  | some r0 => simp only [hfind] at hadd; simp at hadd
  | none =>
    simp only [hfind, Prod.mk.injEq] at hadd
    obtain ⟨hp1, hr, -⟩ := hadd
    have hfind1 : indexFind p1.index (sha256 d)
        = some ⟨a, List.replicate KObserversMaxCount false, 0⟩ := by
      rw [← hp1]
      simp [indexFind]
    simp only [Pool.Add, hb, hfind1]

/-- C2 witness: adding the byte string [7] twice (instances marshal to the
same bytes; the hash is instantiated with the identity function). -/
theorem pool_add_collision_witness :
    Pool.Add (fun d => d)
      ⟨[([7], ⟨⟨some [7]⟩, List.replicate KObserversMaxCount false, 0⟩)]⟩
      ⟨some [7]⟩
    = (⟨[([7], ⟨⟨some [7]⟩, List.replicate KObserversMaxCount false, 0⟩)]⟩,
        none, some .collision) :=
  pool_add_collision (fun d => d) NewPool _ ⟨some [7]⟩ ⟨some [7]⟩ _ [7]
    rfl rfl rfl

-- ---------------------------------------------------------------------------
-- C10
-- ---------------------------------------------------------------------------

/-- C10. Whenever Pool.Add returns a non-nil error (marshalling failure or
Collision), the returned record is nil and the index map is unchanged; in
particular on Collision the pre-existing record is not handed back. -/
theorem pool_add_error (sha256 : List Nat → List Nat) (p : Pool)
    (inst : PoolInstance) (p2 : Pool) (rOpt : Option Record) (e : PoolErr)
    (h : Pool.Add sha256 p inst = (p2, rOpt, some e)) :
    rOpt = none ∧ p2 = p := by
  cases hm : inst.marshalResult with
  | none =>
    simp only [Pool.Add, hm, Prod.mk.injEq] at h
    exact ⟨h.2.1.symm, h.1.symm⟩
  | some data =>
    simp only [Pool.Add, hm] at h
    cases hfind : indexFind p.index (sha256 data) with
    | some r0 =>
      simp only [hfind, Prod.mk.injEq] at h
      exact ⟨h.2.1.symm, h.1.symm⟩
    | none =>
      simp only [hfind, Prod.mk.injEq] at h
      simp at h

/-- C10 witness: adding an instance whose MarshalBinary fails. -/
theorem pool_add_error_witness :
    (none : Option Record) = none ∧ NewPool = NewPool :=
  pool_add_error (fun d => d) NewPool ⟨none⟩ NewPool none .marshalFailed rfl

-- ---------------------------------------------------------------------------
-- C7
-- ---------------------------------------------------------------------------

/-- Pool states reachable from NewPool by any sequence of Add and Remove. -/
inductive PoolReachable (sha256 : List Nat → List Nat) : Pool → Prop
  | empty : PoolReachable sha256 NewPool
  | add (p : Pool) (inst : PoolInstance) :
      PoolReachable sha256 p → PoolReachable sha256 (Pool.Add sha256 p inst).1
  | remove (p : Pool) (h : List Nat) :
      PoolReachable sha256 p → PoolReachable sha256 (Pool.Remove p h)

theorem indexFind_erase_self (l : List (List Nat × Record)) (k0 : List Nat) :
    indexFind (indexErase l k0) k0 = none := by
  induction l with
  | nil => simp [indexErase, indexFind]
  | cons kv rest ih =>
    obtain ⟨k, v⟩ := kv
    by_cases hk : k = k0
    · simp [indexErase, hk, ih]
    · simp [indexErase, hk, indexFind, ih]

theorem indexFind_erase (l : List (List Nat × Record)) (k0 key : List Nat)
    (r : Record) (h : indexFind (indexErase l k0) key = some r) :
    indexFind l key = some r := by
  induction l with
  | nil => simp [indexErase, indexFind] at h
  | cons kv rest ih =>
    obtain ⟨k, v⟩ := kv
    by_cases hk : k = k0
    · rw [indexErase, if_pos hk] at h
      by_cases hkey : k = key
      · exfalso
        rw [hk] at hkey
        rw [hkey] at h
        rw [indexFind_erase_self] at h
        exact Option.noConfusion h
      · rw [indexFind, if_neg hkey]
        exact ih h
    · rw [indexErase, if_neg hk] at h
      rw [indexFind] at h ⊢
      by_cases hkey : k = key
      · rwa [if_pos hkey] at h ⊢
      · rw [if_neg hkey] at h ⊢
        exact ih h

/-- C7. Hash-addressing invariant: in every pool state reachable from NewPool
by Add / Remove, every key of the index map is the SHA-256 digest of the
marshalled form of the record stored under it. -/
theorem pool_key_hash_invariant (sha256 : List Nat → List Nat) (p : Pool)
    (hp : PoolReachable sha256 p) :
    ∀ key r, indexFind p.index key = some r →
      ∃ d, r.Instance.marshalResult = some d ∧ key = sha256 d := by
  induction hp with
  | empty => intro key r h; simp [NewPool, indexFind] at h
  | add p inst _ ih =>
    intro key r h
    cases hm : inst.marshalResult with
    | none => simp only [Pool.Add, hm] at h; exact ih key r h
    | some data =>
      simp only [Pool.Add, hm] at h
      cases hfind : indexFind p.index (sha256 data) with
      | some r0 => simp only [hfind] at h; exact ih key r h
      | none =>
        simp only [hfind, indexFind] at h
        by_cases hkey : sha256 data = key
        · simp only [if_pos hkey] at h
          refine ⟨data, ?_, hkey.symm⟩
          have : r = ⟨inst, List.replicate KObserversMaxCount false, 0⟩ := by
            exact (Option.some.injEq _ _ ▸ h).symm
          rw [this, hm]
        · simp only [if_neg hkey] at h
          exact ih key r h
  | remove p k _ ih =>
    intro key r h
    exact ih key r (indexFind_erase p.index k key r h)

/-- C7 witness: the pool reached by one successful Add of the byte string [5]
(identity hash) stores it under key [5], and the invariant yields the digest. -/
theorem pool_key_hash_invariant_witness :
    ∃ d, (⟨⟨some [5]⟩, List.replicate KObserversMaxCount false, 0⟩ :
        Record).Instance.marshalResult = some d ∧ [5] = (fun x => x) d :=
  pool_key_hash_invariant (fun x => x) (Pool.Add (fun x => x) NewPool ⟨some [5]⟩).1
    (PoolReachable.add NewPool ⟨some [5]⟩ PoolReachable.empty)
    [5] ⟨⟨some [5]⟩, List.replicate KObserversMaxCount false, 0⟩ rfl

-- ---------------------------------------------------------------------------
-- Timer (src/unnamed/part_000, package timer)
-- ---------------------------------------------------------------------------

/-- Errors the timer code can signal. -/
inductive TimerErr
  | channelTransferringFailed
  | emptySequence
  | nilParameter
deriving DecidableEq

/-- timer processTick, acting on the current frame index (uint16): increment
with uint16 wrap-around, resetting to 0 when the result equals
ObserversMaxCount. The fresh EventTimeFrameEnd carries this index. -/
def processTick (index : Nat) : Nat :=
  let nextFrameNumber := (index + 1) % 65536
  if nextFrameNumber = ObserversMaxCount then 0 else nextFrameNumber

/-- The sequence of frame indices produced by iterating processTick from a
starting index (the index after synchronisation, or the pre-sync sentinel). -/
def frameIndexTrace (start : Nat) : Nat → Nat
  | 0 => start
  | n + 1 => processTick (frameIndexTrace start n)

theorem processTick_step (i : Nat)
    (h : i = kInitialTimeFrameIndex ∨ i < ObserversMaxCount) :
    processTick i = (i + 1) % ObserversMaxCount ∧
      processTick i < ObserversMaxCount := by
  unfold processTick ObserversMaxCount
  unfold kInitialTimeFrameIndex ObserversMaxCount at h
  rcases h with h | h
  · subst h
    norm_num
  · have h1 : (i + 1) % 65536 = i + 1 := Nat.mod_eq_of_lt (by omega)
    rw [h1]
    by_cases h2 : i + 1 = 1024
    · simp [h2]
    · rw [if_neg h2]
      constructor
      · exact (Nat.mod_eq_of_lt (by omega)).symm
      · omega

/-- C8. After synchronisation (the start index is the MAX-u16 sentinel or a
valid index below ObserversMaxCount), every tick advances the frame index by
exactly one modulo ObserversMaxCount: the sequence of emitted indices
satisfies next = (prev + 1) mod ObserversMaxCount (the sentinel is followed by
0 = (65535 + 1) mod 1024), and no index is ever skipped. -/
theorem frame_indices_increment_mod (start : Nat)
    (h : start = kInitialTimeFrameIndex ∨ start < ObserversMaxCount) :
    ∀ n, frameIndexTrace start (n + 1)
      = (frameIndexTrace start n + 1) % ObserversMaxCount := by
  have hinv : ∀ n, frameIndexTrace start n = kInitialTimeFrameIndex ∨
      frameIndexTrace start n < ObserversMaxCount := by
    intro n
    induction n with
    | zero => exact h
    | succ m ih =>
      exact Or.inr (processTick_step (frameIndexTrace start m) ih).2
  intro n
  exact (processTick_step (frameIndexTrace start n) (hinv n)).1

/-- C8 witness: from the sentinel, the first tick yields frame 0. -/
theorem frame_indices_increment_mod_witness :
    frameIndexTrace 65535 1 = (frameIndexTrace 65535 0 + 1) % ObserversMaxCount :=
  frame_indices_increment_mod 65535 (Or.inl rfl) 0

-- ---------------------------------------------------------------------------
-- C4: timer processTimeFrameRequest
-- ---------------------------------------------------------------------------

/-- Seconds component (0-59) of the wall-clock reading of an Int-nanosecond
timestamp, as Go time.Time.Second() returns it; used here for the non-negative
timestamps of the theorems (the Go zero Time also has Second() = 0). -/
def timeSecond (t : Int) : Nat := t.toNat / 1000000000 % 60

/-- timer processTimeFrameRequest. Inputs: the average block generation
interval in nanoseconds (common.AverageBlockGenerationTimeRange, agreed
out-of-band), the isTickerRunning flag, the synchronisation deadline, the
current time, the current frame index, and whether the outgoing response
channel is full. Output: the response (frame index, nanoseconds_left =
uint64(interval + (deadline - now))) actually handed to the channel, if any,
and the returned error, if any. Go Duration subtraction is modelled as exact
Int subtraction (it only saturates beyond about 292 years). -/
def processTimeFrameRequest (abgtr : Int) (isTickerRunning : Bool)
    (deadline now : Int) (frameIndex : Nat) (outgoingFull : Bool) :
    Option (Nat × Nat) × Option TimerErr :=
  if isTickerRunning = false ∧ timeSecond deadline = 0 then
    (none, none)
  else
    let kNextFrameTimeLeft : Int := abgtr + (deadline - now)
    let idx := if frameIndex = kInitialTimeFrameIndex then 0 else frameIndex
    let response := (idx, toUInt64 kNextFrameTimeLeft)
    if outgoingFull then (none, some .channelTransferringFailed)
    else (some response, none)

/-- C4. Failing input showing the code bug: the ticker is stopped and a
synchronisation IS in progress (now = 590 s < deadline = 600 s, a deadline
10 minutes after the origin), yet because the deadline's wall-clock seconds
component happens to be 0 the code silently drops the request and returns nil
instead of answering with nanoseconds_left = interval + (deadline - now).
The guard compares Second() == 0 - a seconds-of-minute test - where the code's
own comment asks for "not in synchronisation phase". -/
theorem time_frame_request_dropped_during_sync :
    (590000000000 : Int) < 600000000000 ∧
    processTimeFrameRequest 60000000000 false 600000000000 590000000000
      kInitialTimeFrameIndex false = (none, none) := by
  constructor
  · norm_num
  · rfl

-- ---------------------------------------------------------------------------
-- Claims codec (geo package, embedded in
-- src/tests/network/geo/communicator_tsl_is_present_test.go)
-- ---------------------------------------------------------------------------

/-- Codec / geo errors. `outOfRange` models a Go runtime panic from a slice
expression whose bounds exceed the slice length - it is NOT a returned error
value; it is kept distinct from invalidDataFormat for exactly that reason. -/
inductive GErr
  | invalidDataFormat
  | nilInternalDataStructure
  | outOfRange
deriving DecidableEq

/-- Modelled from the spec: common.Uint16ByteSize (the `common` api package is
not under src/). -/
def Uint16ByteSize : Nat := 2

/-- Modelled from the spec: common.Uint32ByteSize. -/
def Uint32ByteSize : Nat := 4

/-- Modelled from the spec: utils.MarshalUint16, little-endian. -/
def MarshalUint16 (v : Nat) : List Nat := [v % 256, v / 256 % 256]

/-- Modelled from the spec: utils.MarshalUint32, little-endian. -/
def MarshalUint32 (v : Nat) : List Nat :=
  [v % 256, v / 256 % 256, v / 65536 % 256, v / 16777216 % 256]

/-- Modelled from the spec: utils.UnmarshalUint16; fails with
InvalidDataFormat on short input. -/
def UnmarshalUint16 : List Nat → Except GErr Nat
  | b0 :: b1 :: _ => .ok (b0 + b1 * 256)
  | _ => .error .invalidDataFormat

/-- Modelled from the spec: utils.UnmarshalUint32; fails with
InvalidDataFormat on short input. -/
def UnmarshalUint32 : List Nat → Except GErr Nat
  | b0 :: b1 :: b2 :: b3 :: _ =>
    .ok (b0 + b1 * 256 + b2 * 65536 + b3 * 16777216)
  | _ => .error .invalidDataFormat

/-- Modelled from the spec: utils.ChainByteSlices, concatenation of byte
slices. -/
def chainByteSlices : List (List Nat) → List Nat
  | [] => []
  | s :: rest => s ++ chainByteSlices rest

/-- A Go slice expression data[lo:hi]: defined only when lo ≤ hi ≤ len(data);
otherwise the Go program panics (modelled as `none`). -/
def goSlice (data : List Nat) (lo hi : Nat) : Option (List Nat) :=
  if lo ≤ hi ∧ hi ≤ data.length then some ((data.drop lo).take (hi - lo))
  else none

/-- Modelled from the spec: transactions.TxID, a fixed-width 16-byte
identifier (the transactions package is not under src/). -/
structure TxID where
  bytes : List Nat
deriving DecidableEq

def TxIDBinarySize : Nat := 16

/-- Modelled from the spec: TxID.MarshalBinary returns the 16 identifier
bytes. -/
def TxID.MarshalBinary (t : TxID) : Except GErr (List Nat) := .ok t.bytes

/-- Modelled from the spec: TxID.UnmarshalBinary accepts exactly
TxIDBinarySize bytes. -/
def TxID.UnmarshalBinary (data : List Nat) : Except GErr TxID :=
  if data.length = TxIDBinarySize then .ok ⟨data⟩
  else .error .invalidDataFormat

/-- Modelled from the spec: ClaimMembers, the ordered list of participant
identities of a claim (16-bit identities, count-prefixed on the wire, minimum
one member; the members code is not under src/). -/
structure ClaimMembers where
  ids : List Nat
deriving DecidableEq

/-- Reading of `n` little-endian 16-bit identities consuming the whole
input. -/
def parseMemberIds : Nat → List Nat → Except GErr (List Nat)
  | 0, [] => .ok []
  | 0, _ :: _ => .error .invalidDataFormat
  | n + 1, b0 :: b1 :: rest => do
    let ids ← parseMemberIds n rest
    .ok ((b0 + b1 * 256) :: ids)
  | _ + 1, _ => .error .invalidDataFormat

/-- Modelled from the spec: ClaimMembers.MarshalBinary = 2-byte count followed
by the 2-byte identities. -/
def ClaimMembers.MarshalBinary (m : ClaimMembers) : Except GErr (List Nat) :=
  .ok (MarshalUint16 m.ids.length ++ chainByteSlices (m.ids.map MarshalUint16))

/-- Modelled from the spec: ClaimMembers.UnmarshalBinary, inverse of
MarshalBinary; InvalidDataFormat on any length mismatch. -/
def ClaimMembers.UnmarshalBinary : List Nat → Except GErr ClaimMembers
  | b0 :: b1 :: rest => do
    let ids ← parseMemberIds (b0 + b1 * 256) rest
    .ok ⟨ids⟩
  | _ => .error .invalidDataFormat

/-- Modelled from the spec: minimal binary size of ClaimMembers (count plus
one identity). -/
def ClaimMembersMinBinarySize : Nat := 4

/-- geo: ClaimMinBinarySize = transactions.TxIDBinarySize +
ClaimMembersMinBinarySize. -/
def ClaimMinBinarySize : Nat := TxIDBinarySize + ClaimMembersMinBinarySize

/-- geo: Claim - a pair of pointers (TxUUID, Members); nil pointers are
`none`. -/
structure Claim where
  TxUUID : Option TxID
  Members : Option ClaimMembers
deriving DecidableEq

/-- geo: Claim.MarshalBinary - NilInternalDataStructure when a pointer is
nil, otherwise ChainByteSlices(txIDBinary, membersBinary). -/
def Claim.MarshalBinary (c : Claim) : Except GErr (List Nat) :=
  match c.TxUUID, c.Members with
  | some t, some m => do
    let txIDBinary ← t.MarshalBinary
    let membersBinary ← m.MarshalBinary
    .ok (chainByteSlices [txIDBinary, membersBinary])
  | _, _ => .error .nilInternalDataStructure

/-- geo: Claim.UnmarshalBinary - InvalidDataFormat below ClaimMinBinarySize,
then TxID from data[:16] and members from data[16:]. -/
def Claim.UnmarshalBinary (data : List Nat) : Except GErr Claim :=
  if data.length < ClaimMinBinarySize then .error .invalidDataFormat
  else do
    let t ← TxID.UnmarshalBinary (data.take TxIDBinarySize)
    let m ← ClaimMembers.UnmarshalBinary (data.drop TxIDBinarySize)
    .ok ⟨some t, some m⟩

/-- geo: ClaimsMaxCount = 1024 * 16. -/
def ClaimsMaxCount : Nat := 1024 * 16

/-- geo: Claims - the batch. -/
structure Claims where
  At : List Claim
deriving DecidableEq

/-- geo: Claims.Count = uint16(len(c.At)). -/
def Claims.Count (c : Claims) : Nat := c.At.length % 65536

/-- The claim loop of Claims.MarshalBinary: produce the concatenated 4-byte
size headers and the list of claim payloads, skipping empty payloads,
propagating the first marshalling error. -/
def marshalClaimsLoop : List Claim → Except GErr (List Nat × List (List Nat))
  | [] => .ok ([], [])
  | c :: rest => do
    let claimBinary ← c.MarshalBinary
    let (sizes, payloads) ← marshalClaimsLoop rest
    if claimBinary.length = 0 then .ok (sizes, payloads)
    else .ok (MarshalUint32 claimBinary.length ++ sizes, claimBinary :: payloads)

/-- geo: Claims.MarshalBinary - 2-byte count, then the size headers, then the
payloads. -/
def Claims.MarshalBinary (c : Claims) : Except GErr (List Nat) := do
  let (sizes, payloads) ← marshalClaimsLoop c.At
  .ok (MarshalUint16 c.Count ++ (sizes ++ chainByteSlices payloads))

/-- The size-header loop of Claims.UnmarshalBinary: read `n` 4-byte sizes
starting at `offset`; each slice data[offset:offset+4] panics when it
overruns the input (the Go code performs no bounds check). The source's
assignment of InvalidDataFormat on a zero size hits a shadowed local `err`
and has no effect, so it is not modelled. -/
def readSizes (data : List Nat) : Nat → Nat → Except GErr (List Nat × Nat)
  | 0, offset => .ok ([], offset)
  | n + 1, offset =>
    match goSlice data offset (offset + Uint32ByteSize) with
    | none => .error .outOfRange
    | some s => do
      let claimSize ← UnmarshalUint32 s
      let (rest, endOffset) ← readSizes data n (offset + Uint32ByteSize)
      .ok (claimSize :: rest, endOffset)

/-- The payload loop of Claims.UnmarshalBinary: slice data[offset:offset+size]
(panicking on overrun) and unmarshal each claim. -/
def readClaims (data : List Nat) : List Nat → Nat → Except GErr (List Claim)
  | [], _ => .ok []
  | claimSize :: rest, offset =>
    match goSlice data offset (offset + claimSize) with
    | none => .error .outOfRange
    | some s => do
      let c ← Claim.UnmarshalBinary s
      let cs ← readClaims data rest (offset + claimSize)
      .ok (c :: cs)

/-- geo: Claims.UnmarshalBinary - count from data[:2], then the size headers,
then the payloads. -/
def Claims.UnmarshalBinary (data : List Nat) : Except GErr Claims :=
  match goSlice data 0 Uint16ByteSize with
  | none => .error .outOfRange
  | some s0 => do
    let count ← UnmarshalUint16 s0
    if count = 0 then .ok ⟨[]⟩
    else do
      let szs ← readSizes data count Uint16ByteSize
      let cs ← readClaims data szs.1 szs.2
      .ok ⟨cs⟩

instance {ε α : Type} [DecidableEq ε] [DecidableEq α] :
    DecidableEq (Except ε α) := fun x y =>
  match x, y with
  | .ok a, .ok b =>
    if h : a = b then isTrue (by rw [h])
    else isFalse (by intro hh; cases hh; exact h rfl)
  | .error e, .error f =>
    if h : e = f then isTrue (by rw [h])
    else isFalse (by intro hh; cases hh; exact h rfl)
  | .ok _, .error _ => isFalse (by intro hh; cases hh)
  | .error _, .ok _ => isFalse (by intro hh; cases hh)

-- ---------------------------------------------------------------------------
-- C5
-- ---------------------------------------------------------------------------

/-- C5. Failing input showing the code bug: a batch declaring 2 claims whose
second 4-byte size header is missing ([0x02 0x00 | 0x06 0x00 0x00 0x00], 6
bytes). The size-header loop evaluates data[6:10] on a 6-byte slice, which is
a Go runtime panic (slice bounds out of range), not the InvalidDataFormat
error the codec contract promises; in particular the InvalidDataFormat value
is never returned. -/
theorem claims_unmarshal_truncated_panics :
    Claims.UnmarshalBinary [2, 0, 6, 0, 0, 0] = .error .outOfRange ∧
    Claims.UnmarshalBinary [2, 0, 6, 0, 0, 0] ≠ .error .invalidDataFormat := by
  decide

-- ---------------------------------------------------------------------------
-- C6: round trip
-- ---------------------------------------------------------------------------

/-- The marshalled bytes of a claim (empty list on the error path). -/
def claimBin (c : Claim) : List Nat :=
  match Claim.MarshalBinary c with
  | .ok d => d
  | .error _ => []

/-- Well-formedness of a claim: non-nil TxID of the fixed 16-byte width and
non-nil members of at least the minimum (one) and at most the encodable
(uint16) size, with 16-bit identities. -/
def Claim.validB (c : Claim) : Bool :=
  match c.TxUUID, c.Members with
  | some t, some m =>
    t.bytes.length == 16 && decide (1 ≤ m.ids.length) &&
      decide (m.ids.length < 65536) && m.ids.all (fun i => decide (i < 65536))
  | _, _ => false

theorem except_bind_ok {ε α β : Type} (a : α) (f : α → Except ε β) :
    (Except.ok a : Except ε α) >>= f = f a := rfl

theorem validB_spec (c : Claim) (h : Claim.validB c = true) :
    ∃ t m, c.TxUUID = some t ∧ c.Members = some m ∧
      t.bytes.length = 16 ∧ 1 ≤ m.ids.length ∧ m.ids.length < 65536 ∧
      ∀ i ∈ m.ids, i < 65536 := by
  unfold Claim.validB at h
  cases ht : c.TxUUID with
  | none => rw [ht] at h; simp at h
  | some t =>
    cases hm : c.Members with
    | none => rw [ht, hm] at h; simp at h
    | some m =>
      rw [ht, hm] at h
      simp only [Bool.and_eq_true, beq_iff_eq, decide_eq_true_eq,
        List.all_eq_true] at h
      exact ⟨t, m, rfl, rfl, h.1.1.1, h.1.1.2, h.1.2, fun i hi => by
        simpa using h.2 i hi⟩

theorem chain_u16_length (ids : List Nat) :
    (chainByteSlices (ids.map MarshalUint16)).length = 2 * ids.length := by
  induction ids with
  | nil => simp [chainByteSlices]
  | cons i rest ih =>
    simp [chainByteSlices, MarshalUint16, ih]
    omega

theorem claimBin_eq (c : Claim) (t : TxID) (m : ClaimMembers)
    (ht : c.TxUUID = some t) (hm : c.Members = some m) :
    Claim.MarshalBinary c = .ok (claimBin c) ∧
    claimBin c = t.bytes ++
      (MarshalUint16 m.ids.length ++
        chainByteSlices (m.ids.map MarshalUint16)) := by
  have hmar : Claim.MarshalBinary c = .ok (t.bytes ++
      (MarshalUint16 m.ids.length ++
        chainByteSlices (m.ids.map MarshalUint16))) := by
    unfold Claim.MarshalBinary
    rw [ht, hm]
    simp [TxID.MarshalBinary, ClaimMembers.MarshalBinary, except_bind_ok,
      chainByteSlices]
  refine ⟨?_, ?_⟩ <;> rw [claimBin, hmar]

theorem claimBin_length (c : Claim) (t : TxID) (m : ClaimMembers)
    (ht : c.TxUUID = some t) (hm : c.Members = some m)
    (htlen : t.bytes.length = 16) :
    (claimBin c).length = 18 + 2 * m.ids.length := by
  rw [(claimBin_eq c t m ht hm).2]
  simp [MarshalUint16, chain_u16_length, htlen]
  omega

theorem parseMemberIds_chain (ids : List Nat) (h : ∀ i ∈ ids, i < 65536) :
    parseMemberIds ids.length (chainByteSlices (ids.map MarshalUint16))
      = .ok ids := by
  induction ids with
  | nil => simp [chainByteSlices, parseMemberIds]
  | cons i rest ih =>
    have hi : i < 65536 := h i (by simp)
    have hid : i % 256 + i / 256 % 256 * 256 = i := by omega
    have hchain : chainByteSlices ((i :: rest).map MarshalUint16)
        = i % 256 :: i / 256 % 256 :: chainByteSlices (rest.map MarshalUint16) := by
      simp [chainByteSlices, MarshalUint16]
    rw [List.length_cons, hchain, parseMemberIds,
      ih (fun j hj => h j (by simp [hj])), except_bind_ok, hid]

theorem members_roundtrip (m : ClaimMembers) (hlt : m.ids.length < 65536)
    (hall : ∀ i ∈ m.ids, i < 65536) :
    ClaimMembers.UnmarshalBinary
      (MarshalUint16 m.ids.length ++ chainByteSlices (m.ids.map MarshalUint16))
      = .ok m := by
  have hcnt : m.ids.length % 256 + m.ids.length / 256 % 256 * 256
      = m.ids.length := by omega
  simp only [MarshalUint16, List.cons_append, List.nil_append,
    ClaimMembers.UnmarshalBinary]
  rw [hcnt, parseMemberIds_chain m.ids hall, except_bind_ok]

theorem claim_roundtrip (c : Claim) (h : Claim.validB c = true) :
    Claim.MarshalBinary c = .ok (claimBin c) ∧
    Claim.UnmarshalBinary (claimBin c) = .ok c := by
  obtain ⟨t, m, ht, hm, htlen, hmin, hlt, hall⟩ := validB_spec c h
  obtain ⟨hmar, hbin⟩ := claimBin_eq c t m ht hm
  refine ⟨hmar, ?_⟩
  have hblen : (claimBin c).length = 18 + 2 * m.ids.length :=
    claimBin_length c t m ht hm htlen
  unfold Claim.UnmarshalBinary
  have hnotshort : ¬ ((claimBin c).length < ClaimMinBinarySize) := by
    rw [hblen]
    unfold ClaimMinBinarySize TxIDBinarySize ClaimMembersMinBinarySize
    omega
  rw [if_neg hnotshort]
  have htake : (claimBin c).take TxIDBinarySize = t.bytes := by
    rw [hbin]
    exact List.take_left' htlen
  have hdrop : (claimBin c).drop TxIDBinarySize =
      MarshalUint16 m.ids.length ++ chainByteSlices (m.ids.map MarshalUint16) := by
    rw [hbin]
    exact List.drop_left' htlen
  rw [htake, hdrop]
  have htlen16 : t.bytes.length = TxIDBinarySize := by
    unfold TxIDBinarySize
    exact htlen
  have htx : TxID.UnmarshalBinary t.bytes = .ok t := by
    unfold TxID.UnmarshalBinary
    rw [if_pos htlen16]
  rw [htx, except_bind_ok, members_roundtrip m hlt hall, except_bind_ok,
    ← ht, ← hm]

theorem goSlice_append (pre mid post : List Nat) :
    goSlice (pre ++ (mid ++ post)) pre.length (pre.length + mid.length)
      = some mid := by
  unfold goSlice
  have h2 : pre.length + mid.length ≤ (pre ++ (mid ++ post)).length := by
    simp only [List.length_append]
    omega
  rw [if_pos ⟨Nat.le_add_right _ _, h2⟩]
  have h3 : pre.length + mid.length - pre.length = mid.length := by omega
  rw [h3]
  rw [List.drop_left, List.take_left]

theorem chain_sizes_length (l : List Claim) :
    (chainByteSlices (l.map fun c => MarshalUint32 (claimBin c).length)).length
      = 4 * l.length := by
  induction l with
  | nil => simp [chainByteSlices]
  | cons c rest ih =>
    have h4 : (MarshalUint32 (claimBin c).length).length = 4 := by
      simp [MarshalUint32]
    simp only [List.map_cons, chainByteSlices, List.length_append, h4, ih,
      List.length_cons]
    omega

theorem marshalClaimsLoop_ok (l : List Claim)
    (h : ∀ c ∈ l, Claim.validB c = true) :
    marshalClaimsLoop l = .ok
      (chainByteSlices (l.map fun c => MarshalUint32 (claimBin c).length),
        l.map claimBin) := by
  induction l with
  | nil => simp [marshalClaimsLoop, chainByteSlices]
  | cons c rest ih =>
    have hc : Claim.validB c = true := h c (by simp)
    obtain ⟨t, m, ht, hm, htlen, hmin, hlt, hall⟩ := validB_spec c hc
    have hne : ¬ ((claimBin c).length = 0) := by
      rw [claimBin_length c t m ht hm htlen]
      omega
    unfold marshalClaimsLoop
    rw [(claim_roundtrip c hc).1, except_bind_ok,
      ih (fun x hx => h x (by simp [hx])), except_bind_ok]
    simp only [hne, if_false, List.map_cons, chainByteSlices]

theorem claims_marshal_eq (b : Claims)
    (h : ∀ c ∈ b.At, Claim.validB c = true) :
    Claims.MarshalBinary b = .ok
      (MarshalUint16 b.Count ++
        (chainByteSlices (b.At.map fun c => MarshalUint32 (claimBin c).length)
          ++ chainByteSlices (b.At.map claimBin))) := by
  unfold Claims.MarshalBinary
  rw [marshalClaimsLoop_ok b.At h, except_bind_ok]

theorem readSizes_ok (l : List Claim) (h : ∀ c ∈ l, Claim.validB c = true)
    (pre post : List Nat) :
    readSizes
      (pre ++
        (chainByteSlices (l.map fun c => MarshalUint32 (claimBin c).length)
          ++ post))
      l.length pre.length
    = .ok (l.map fun c => (claimBin c).length, pre.length + 4 * l.length) := by
  induction l generalizing pre with
  | nil => simp [readSizes, chainByteSlices]
  | cons c rest ih =>
    have hc : Claim.validB c = true := h c (by simp)
    obtain ⟨t, m, ht, hm, htlen, hmin, hlt, hall⟩ := validB_spec c hc
    have hlen32 : (claimBin c).length < 4294967296 := by
      rw [claimBin_length c t m ht hm htlen]
      omega
    have hdata : pre ++
        (chainByteSlices ((c :: rest).map fun x => MarshalUint32 (claimBin x).length)
          ++ post)
      = pre ++ (MarshalUint32 (claimBin c).length ++
          (chainByteSlices (rest.map fun x => MarshalUint32 (claimBin x).length)
            ++ post)) := by
      simp [chainByteSlices, List.append_assoc]
    have hslice : goSlice
        (pre ++ (MarshalUint32 (claimBin c).length ++
          (chainByteSlices (rest.map fun x => MarshalUint32 (claimBin x).length)
            ++ post)))
        pre.length (pre.length + Uint32ByteSize)
      = some (MarshalUint32 (claimBin c).length) := by
      have h4 : (MarshalUint32 (claimBin c).length).length = Uint32ByteSize := by
        simp [MarshalUint32, Uint32ByteSize]
      rw [← h4]
      exact goSlice_append pre _ _
    have hu32 : UnmarshalUint32 (MarshalUint32 (claimBin c).length)
        = .ok (claimBin c).length := by
      simp only [MarshalUint32, UnmarshalUint32]
      congr 1
      omega
    simp only [List.length_cons, readSizes, hdata, hslice]
    rw [hu32, except_bind_ok]
    have hpre : pre.length + Uint32ByteSize
        = (pre ++ MarshalUint32 (claimBin c).length).length := by
      simp [MarshalUint32, Uint32ByteSize]
    rw [hpre]
    have hdata2 : pre ++ (MarshalUint32 (claimBin c).length ++
        (chainByteSlices (rest.map fun x => MarshalUint32 (claimBin x).length)
          ++ post))
      = (pre ++ MarshalUint32 (claimBin c).length) ++
        (chainByteSlices (rest.map fun x => MarshalUint32 (claimBin x).length)
          ++ post) := by
      simp [List.append_assoc]
    rw [hdata2, ih (fun x hx => h x (by simp [hx])), except_bind_ok]
    have : (pre ++ MarshalUint32 (claimBin c).length).length
        = pre.length + 4 := by
      simp [MarshalUint32]
    rw [this]
    have harith : pre.length + 4 + 4 * rest.length
        = pre.length + 4 * (rest.length + 1) := by omega
    rw [harith]
    rfl

theorem readClaims_ok (l : List Claim) (h : ∀ c ∈ l, Claim.validB c = true)
    (pre : List Nat) :
    readClaims (pre ++ chainByteSlices (l.map claimBin))
      (l.map fun c => (claimBin c).length) pre.length
    = .ok l := by
  induction l generalizing pre with
  | nil => simp [readClaims, chainByteSlices]
  | cons c rest ih =>
    have hc : Claim.validB c = true := h c (by simp)
    have hdata : pre ++ chainByteSlices (claimBin c :: rest.map claimBin)
        = pre ++ (claimBin c ++ chainByteSlices (rest.map claimBin)) := by
      simp [chainByteSlices]
    have hslice : goSlice
        (pre ++ (claimBin c ++ chainByteSlices (rest.map claimBin)))
        pre.length (pre.length + (claimBin c).length)
      = some (claimBin c) :=
      goSlice_append pre _ _
    simp only [List.map_cons, readClaims]
    rw [hdata]
    simp only [hslice]
    rw [(claim_roundtrip c hc).2, except_bind_ok]
    have hpre : pre.length + (claimBin c).length
        = (pre ++ claimBin c).length := by
      simp
    rw [hpre]
    have hdata2 : pre ++ (claimBin c ++ chainByteSlices (rest.map claimBin))
        = (pre ++ claimBin c) ++ chainByteSlices (rest.map claimBin) := by
      simp [List.append_assoc]
    rw [hdata2, ih (fun x hx => h x (by simp [hx])), except_bind_ok]

/-- C6. Round trip: for every batch of well-formed claims (non-nil 16-byte
TxID, non-nil members of at least the minimum size, counts within the
encodable bounds) with at most ClaimsMaxCount entries, Claims.UnmarshalBinary
applied to a successful Claims.MarshalBinary output reconstructs the original
batch. -/
theorem claims_marshal_unmarshal (b : Claims)
    (hv : ∀ c ∈ b.At, Claim.validB c = true)
    (hn : b.At.length ≤ ClaimsMaxCount)
    (d : List Nat) (hm : Claims.MarshalBinary b = .ok d) :
    Claims.UnmarshalBinary d = .ok b := by
  have hcnt : b.Count = b.At.length := by
    unfold Claims.Count
    unfold ClaimsMaxCount at hn
    exact Nat.mod_eq_of_lt (by omega)
  rw [claims_marshal_eq b hv] at hm
  injection hm with hm
  subst hm
  unfold Claims.UnmarshalBinary
  have hslice0 : goSlice
      (MarshalUint16 b.Count ++
        (chainByteSlices (b.At.map fun c => MarshalUint32 (claimBin c).length)
          ++ chainByteSlices (b.At.map claimBin)))
      0 Uint16ByteSize
    = some (MarshalUint16 b.Count) := by
    have h0 : (0 : Nat) = ([] : List Nat).length := rfl
    have h2 : Uint16ByteSize = ([] : List Nat).length + (MarshalUint16 b.Count).length := by
      simp [MarshalUint16, Uint16ByteSize]
    rw [h0, h2]
    have := goSlice_append ([] : List Nat) (MarshalUint16 b.Count)
      (chainByteSlices (b.At.map fun c => MarshalUint32 (claimBin c).length)
        ++ chainByteSlices (b.At.map claimBin))
    simpa using this
  simp only [hslice0]
  have hu16 : UnmarshalUint16 (MarshalUint16 b.Count) = .ok b.Count := by
    simp only [MarshalUint16, UnmarshalUint16]
    congr 1
    have : b.Count < 65536 := by
      unfold Claims.Count
      omega
    omega
  rw [hu16, except_bind_ok]
  by_cases hz : b.Count = 0
  · rw [if_pos hz]
    have : b.At = [] := by
      rw [hcnt] at hz
      exact List.length_eq_zero.mp hz
    cases b with
    | mk at0 =>
      simp only at this
      subst this
      rfl
  · rw [if_neg hz]
    have hrs := readSizes_ok b.At hv (MarshalUint16 b.Count)
      (chainByteSlices (b.At.map claimBin))
    have hpre16 : (MarshalUint16 b.Count).length = Uint16ByteSize := by
      simp [MarshalUint16, Uint16ByteSize]
    rw [hpre16, ← hcnt] at hrs
    rw [hrs, except_bind_ok]
    have hrc := readClaims_ok b.At hv
      (MarshalUint16 b.Count ++
        chainByteSlices (b.At.map fun c => MarshalUint32 (claimBin c).length))
    have hpre2 : (MarshalUint16 b.Count ++
        chainByteSlices (b.At.map fun c => MarshalUint32 (claimBin c).length)).length
      = Uint16ByteSize + 4 * b.At.length := by
      simp only [List.length_append, hpre16, chain_sizes_length]
    rw [hpre2, List.append_assoc] at hrc
    rw [← hcnt] at hrc
    dsimp only
    rw [hrc, except_bind_ok]

/-- A concrete well-formed one-claim batch. -/
def c6batch : Claims :=
  ⟨[⟨some ⟨List.replicate 16 1⟩, some ⟨[3]⟩⟩]⟩

/-- C6 witness: the concrete batch survives the marshal / unmarshal round
trip. -/
theorem claims_marshal_unmarshal_witness :
    Claims.UnmarshalBinary ((Claims.MarshalBinary c6batch).toOption.getD [])
      = .ok c6batch :=
  claims_marshal_unmarshal c6batch (by decide) (by decide) _ rfl

-- ---------------------------------------------------------------------------
-- C9: Claims.Sort
-- ---------------------------------------------------------------------------

/-- bytes.Compare(a, b) == -1, the strict lexicographic byte order used by the
Claims.Sort comparator. -/
def lexLt : List Nat → List Nat → Bool
  | [], [] => false
  | [], _ :: _ => true
  | _ :: _, [] => false
  | a :: as, b :: bs =>
    if a < b then true else if b < a then false else lexLt as bs

theorem lexLt_irrefl : ∀ x : List Nat, lexLt x x = false := by
  intro x
  induction x with
  | nil => rfl
  | cons a as ih => simp [lexLt, ih]

theorem lexLt_trans : ∀ x y z : List Nat,
    lexLt x y = true → lexLt y z = true → lexLt x z = true := by
  intro x
  induction x with
  | nil =>
    intro y z hxy hyz
    cases y with
    | nil => simp [lexLt] at hxy
    | cons b bs =>
      cases z with
      | nil => simp [lexLt] at hyz
      | cons c cs => simp [lexLt]
  | cons a as ih =>
    intro y z hxy hyz
    cases y with
    | nil => simp [lexLt] at hxy
    | cons b bs =>
      cases z with
      | nil => simp [lexLt] at hyz
      | cons c cs =>
        simp only [lexLt] at hxy hyz ⊢
        by_cases hab : a < b
        · by_cases hbc : b < c
          · simp [show a < c by omega]
          · simp only [hbc, if_false] at hyz
            by_cases hcb : c < b
            · simp [hcb] at hyz
            · simp only [hcb, if_false] at hyz
              simp [show a < c by omega]
        · simp only [hab, if_false] at hxy
          by_cases hba : b < a
          · simp [hba] at hxy
          · simp only [hba, if_false] at hxy
            by_cases hbc : b < c
            · simp [show a < c by omega]
            · simp only [hbc, if_false] at hyz
              by_cases hcb : c < b
              · simp [hcb] at hyz
              · simp only [hcb, if_false] at hyz
                have hac : ¬ a < c := by omega
                have hca : ¬ c < a := by omega
                simp only [hac, hca, if_false]
                exact ih bs cs hxy hyz

theorem lexLt_false_cases : ∀ x y : List Nat,
    lexLt x y = false → x = y ∨ lexLt y x = true := by
  intro x
  induction x with
  | nil =>
    intro y h
    cases y with
    | nil => exact Or.inl rfl
    | cons c cs => simp [lexLt] at h
  | cons a as ih =>
    intro y h
    cases y with
    | nil => exact Or.inr rfl
    | cons b bs =>
      simp only [lexLt] at h
      by_cases hab : a < b
      · simp [hab] at h
      · simp only [hab, if_false] at h
        by_cases hba : b < a
        · exact Or.inr (by simp [lexLt, hba])
        · simp only [hba, if_false] at h
          have hEq : a = b := by omega
          rcases ih bs h with heq | hlt
          · exact Or.inl (by rw [hEq, heq])
          · exact Or.inr (by simp [lexLt, hab, hba, hEq, hlt])

/-- The comparator-induced order on claims: the Go sort.Slice less function is
lexLt on the marshalled forms; a claim precedes another when the other is not
strictly below it. -/
def claimLe (c1 c2 : Claim) : Prop :=
  lexLt (claimBin c2) (claimBin c1) = false

instance : DecidableRel claimLe := fun c1 c2 =>
  if h : lexLt (claimBin c2) (claimBin c1) = false then isTrue h
  else isFalse h

theorem bool_eq_true_of_ne_false {b : Bool} (h : ¬ b = false) : b = true := by
  cases b with
  | false => exact absurd rfl h
  | true => rfl

instance : IsTotal Claim claimLe := by
  constructor
  intro a b
  by_cases h : lexLt (claimBin b) (claimBin a) = false
  · exact Or.inl h
  · right
    by_cases h2 : lexLt (claimBin a) (claimBin b) = false
    · exact h2
    · have ht1 := bool_eq_true_of_ne_false h
      have ht2 := bool_eq_true_of_ne_false h2
      have := lexLt_trans _ _ _ ht1 ht2
      rw [lexLt_irrefl] at this
      exact absurd this (by simp)

instance : IsTrans Claim claimLe := by
  constructor
  intro a b c hab hbc
  unfold claimLe at hab hbc ⊢
  by_contra hca
  have hca1 := bool_eq_true_of_ne_false hca
  rcases lexLt_false_cases _ _ hbc with heq | hlt
  · rw [heq] at hca1
    rw [hca1] at hab
    exact absurd hab (by simp)
  · have := lexLt_trans _ _ _ hlt hca1
    rw [this] at hab
    exact absurd hab (by simp)

/-- Whether a claim's MarshalBinary succeeds (the Go comparator panics on a
marshalling error and Sort recovers it into its error return). -/
def marshalOkB (c : Claim) : Bool :=
  match Claim.MarshalBinary c with
  | .ok _ => true
  | .error _ => false

/-- geo: Claims.Sort. The Go code sorts via sort.Slice with the lexLt
comparator over the marshalled claims; sort.Slice guarantees exactly that the
resulting slice is a permutation sorted by the comparator, which is modelled
by insertion sort. With fewer than two claims no comparison runs, so a
marshalling error surfaces (via the recovered panic) only for two or more
claims. -/
def Claims.Sort (c : Claims) : Except GErr Claims :=
  if c.At.length ≤ 1 then .ok c
  else if c.At.all marshalOkB then .ok ⟨List.insertionSort claimLe c.At⟩
  else .error .nilInternalDataStructure

/-- C9. After a successful Claims.Sort, the marshalled forms of the claims
are lexicographically non-decreasing: for all positions i < j, marshal of the
claim at i is not strictly above marshal of the claim at j. -/
theorem claims_sort_sorted (b b2 : Claims) (hs : Claims.Sort b = .ok b2)
    (i j : Nat) (hi : i < b2.At.length) (hj : j < b2.At.length) (hij : i < j)
    (di dj : List Nat)
    (hdi : Claim.MarshalBinary (b2.At.get ⟨i, hi⟩) = .ok di)
    (hdj : Claim.MarshalBinary (b2.At.get ⟨j, hj⟩) = .ok dj) :
    lexLt dj di = false := by
  have hbin_i : claimBin (b2.At.get ⟨i, hi⟩) = di := by
    unfold claimBin
    rw [hdi]
  have hbin_j : claimBin (b2.At.get ⟨j, hj⟩) = dj := by
    unfold claimBin
    rw [hdj]
  unfold Claims.Sort at hs
  by_cases h1 : b.At.length ≤ 1
  · rw [if_pos h1] at hs
    injection hs with hs
    subst hs
    omega
  · rw [if_neg h1] at hs
    by_cases h2 : b.At.all marshalOkB
    · rw [if_pos h2] at hs
      injection hs with hs
      have hAt : b2.At = List.insertionSort claimLe b.At := by
        rw [← hs]
      have hsorted : List.Sorted claimLe (List.insertionSort claimLe b.At) :=
        List.sorted_insertionSort claimLe b.At
      rw [← hAt] at hsorted
      have hrel : claimLe (b2.At.get ⟨i, hi⟩) (b2.At.get ⟨j, hj⟩) :=
        hsorted.rel_get_of_lt hij
      unfold claimLe at hrel
      rw [hbin_i, hbin_j] at hrel
      exact hrel
    · rw [if_neg h2] at hs
      exact absurd hs (by simp)

/-- A two-claim batch in reverse order. -/
def c9a : Claim := ⟨some ⟨List.replicate 16 9⟩, some ⟨[1]⟩⟩

def c9b : Claim := ⟨some ⟨List.replicate 16 1⟩, some ⟨[2]⟩⟩

def c9batch : Claims := ⟨[c9a, c9b]⟩

def c9sorted : Claims := ⟨[c9b, c9a]⟩

/-- C9 witness: sorting the reversed two-claim batch yields a pair whose
marshalled forms are in non-decreasing order. -/
theorem claims_sort_sorted_witness :
    lexLt (claimBin c9a) (claimBin c9b) = false :=
  claims_sort_sorted c9batch c9sorted (by decide) 0 1 (by decide) (by decide)
    (by decide) (claimBin c9b) (claimBin c9a) rfl rfl

-- ---------------------------------------------------------------------------
-- C3: timer processMajorityOfFrameResponses
-- ---------------------------------------------------------------------------

/-- responses.ResponseTimeFrame as the timer consumes it: the wire payload
(frame index uint16, nanoseconds-left uint64) plus the transport-local receipt
timestamp (Int nanoseconds). -/
structure ResponseTimeFrame where
  FrameIndex : Nat
  NanosecondsLeft : Nat
  Received : Int
deriving DecidableEq

/-- correctedNanosecondsLeft = int64(AverageBlockGenerationTimeRange) +
int64(vote.NanosecondsLeft) - timeOffset, with timeOffset =
now.Sub(vote.Received).Nanoseconds(); all int64 arithmetic wraps (Duration
subtraction is modelled as wrapping; Go saturates only beyond about 292
years). -/
def correctedNanosecondsLeft (abgtr now : Int) (r : ResponseTimeFrame) : Int :=
  toInt64 (abgtr + toInt64 (r.NanosecondsLeft : Int) - toInt64 (now - r.Received))

/-- The uint64 TTL appended to the vote's frame group:
uint64(correctedNanosecondsLeft). -/
def respTTL (abgtr now : Int) (r : ResponseTimeFrame) : Nat :=
  toUInt64 (correctedNanosecondsLeft abgtr now r)

/-- Read of the `rates` Go map (frame index to TTL list). -/
def ratesFind : List (Nat × List Nat) → Nat → Option (List Nat)
  | [], _ => none
  | (k, v) :: rest, f => if k = f then some v else ratesFind rest f

/-- Write of the `rates` Go map. -/
def ratesStore : List (Nat × List Nat) → Nat → List Nat →
    List (Nat × List Nat)
  | [], f, v => [(f, v)]
  | (k, w) :: rest, f, v =>
    if k = f then (k, v) :: rest else (k, w) :: ratesStore rest f v

/-- The loop state of processMajorityOfFrameResponses: the rates map and the
running top frame / top votes counters. -/
structure MajorityState where
  rates : List (Nat × List Nat)
  topFrameIndex : Nat
  topFrameVotesCount : Nat
deriving DecidableEq

/-- One iteration of the response loop: append the corrected TTL to the
vote's frame group and promote that frame to top when its group strictly
exceeds the running top votes count. -/
def processResponseStep (abgtr now : Int) (st : MajorityState)
    (r : ResponseTimeFrame) : MajorityState :=
  let ttl := respTTL abgtr now r
  match ratesFind st.rates r.FrameIndex with
  | some TTLs =>
    let newTTLs := TTLs ++ [ttl]
    if newTTLs.length > st.topFrameVotesCount then
      ⟨ratesStore st.rates r.FrameIndex newTTLs, r.FrameIndex, newTTLs.length⟩
    else
      ⟨ratesStore st.rates r.FrameIndex newTTLs, st.topFrameIndex,
        st.topFrameVotesCount⟩
  | none =>
    if 1 > st.topFrameVotesCount then
      ⟨ratesStore st.rates r.FrameIndex [ttl], r.FrameIndex, 1⟩
    else
      ⟨ratesStore st.rates r.FrameIndex [ttl], st.topFrameIndex,
        st.topFrameVotesCount⟩

/-- timer processMajorityAndCalculateAverageNextFrameTTL: uint64 sum (with
wrap-around) divided by the length; 0 on the empty list. -/
def processMajorityAndCalculateAverageNextFrameTTL
    (majorityOfTimeOffsets : List Nat) : Nat :=
  if majorityOfTimeOffsets.length = 0 then 0
  else
    (majorityOfTimeOffsets.foldl
      (fun total ttl => (total + ttl) % 18446744073709551616) 0)
    / majorityOfTimeOffsets.length

/-- The fold state after processing the collected responses in channel
order. -/
def stateOf (abgtr now : Int) (rs : List ResponseTimeFrame) : MajorityState :=
  rs.foldl (processResponseStep abgtr now) ⟨[], 0, 0⟩

/-- timer processMajorityOfFrameResponses, on the responses sitting in the
incoming channel in arrival order. Returns (timeOffsetNanoseconds,
nextFrameIndex, collectedResponsesCount) or ErrEmptySequence.
collectedResponsesCount is uint16(len(channel)). -/
def processMajorityOfFrameResponses (abgtr now : Int)
    (responses : List ResponseTimeFrame) :
    Except TimerErr (Nat × Nat × Nat) :=
  let collectedResponsesCount := responses.length % 65536
  if collectedResponsesCount = 0 then .error .emptySequence
  else
    let st := stateOf abgtr now (responses.take collectedResponsesCount)
    let m := (ratesFind st.rates st.topFrameIndex).getD []
    let timeOffsetNanoseconds := processMajorityAndCalculateAverageNextFrameTTL m
    let frameOffset : Nat :=
      if timeOffsetNanoseconds > toUInt64 abgtr then 1 else 0
    let nextFrameIndex0 := (st.topFrameIndex + frameOffset) % 65536
    .ok (timeOffsetNanoseconds,
      if nextFrameIndex0 ≥ ObserversMaxCount then 0 else nextFrameIndex0,
      collectedResponsesCount)

/-- The frame indices of the responses, in arrival order. -/
def frames (rs : List ResponseTimeFrame) : List Nat :=
  rs.map (fun r => r.FrameIndex)

/-- The group of a frame index: the corrected TTLs of the responses carrying
it, in arrival order. -/
def frameTTLs (abgtr now : Int) (rs : List ResponseTimeFrame) (f : Nat) :
    List Nat :=
  (rs.filter (fun r => r.FrameIndex == f)).map (respTTL abgtr now)

/-- The largest group cardinality. -/
def maxMultiplicity (l : List Nat) : Nat :=
  (l.map (fun f => l.count f)).foldr max 0

/-- The frame index of the first prefix position at which some group reaches
cardinality M. -/
def firstToReach (M : Nat) : List Nat → List Nat → Option Nat
  | _, [] => none
  | seen, f :: rest =>
    if seen.count f + 1 = M then some f
    else firstToReach M (seen ++ [f]) rest

/-- Declarative top frame: the group of largest cardinality, ties broken in
favour of the group that first reaches that cardinality in arrival order. -/
def specTopFrame (rs : List ResponseTimeFrame) : Nat :=
  (firstToReach (maxMultiplicity (frames rs)) [] (frames rs)).getD 0

/-- Top frame under the claim's reading of the tie-break: among the groups of
largest cardinality, the frame index that is seen first in arrival order. -/
def firstSeenTopFrame (rs : List ResponseTimeFrame) : Nat :=
  ((frames rs).filter
    (fun f => (frames rs).count f == maxMultiplicity (frames rs))).headD 0

/-- Declarative result (next-frame offset, next frame index): average the top
group's corrected TTLs and increment the index by one, wrapping at
ObserversMaxCount, exactly when the offset exceeds one block-generation
interval. -/
def specNextFrame (abgtr now : Int) (rs : List ResponseTimeFrame) :
    Nat × Nat :=
  let top := specTopFrame rs
  let avg := processMajorityAndCalculateAverageNextFrameTTL
    (frameTTLs abgtr now rs top)
  (avg, if avg > toUInt64 abgtr then (top + 1) % ObserversMaxCount else top)

/-- Four responses: frames 7, 5, 5, 7 in arrival order, all with zero
latency and zero nanoseconds-left. -/
def c3rs : List ResponseTimeFrame :=
  [⟨7, 0, 0⟩, ⟨5, 0, 0⟩, ⟨5, 0, 0⟩, ⟨7, 0, 0⟩]

/-- C3. Counterexample to the claimed tie-break: groups 7 and 5 both have the
top cardinality 2 and frame 7 is seen first, so the claim predicts frame 7
(the offset equals exactly one interval, hence no increment); the code
returns frame 5, because group 5 is the first to REACH cardinality 2 (the
running top is only replaced on a strictly greater count). -/
theorem majority_tie_break_counterexample :
    processMajorityOfFrameResponses 60000000000 0 c3rs
      = .ok (60000000000, 5, 4) ∧
    firstSeenTopFrame c3rs = 7 ∧
    (frames c3rs).count 7 = maxMultiplicity (frames c3rs) ∧
    (frames c3rs).count 5 = maxMultiplicity (frames c3rs) ∧
    (5 : Nat) ≠ 7 := by
  decide

theorem le_foldr_max (a : Nat) (l : List Nat) (h : a ∈ l) :
    a ≤ l.foldr max 0 := by
  induction l with
  | nil => simp at h
  | cons b rest ih =>
    rcases List.mem_cons.mp h with rfl | hmem
    · exact Nat.le_max_left _ _
    · exact le_trans (ih hmem) (Nat.le_max_right _ _)

theorem foldr_max_mem (l : List Nat) : l.foldr max 0 = 0 ∨ l.foldr max 0 ∈ l := by
  induction l with
  | nil => exact Or.inl rfl
  | cons b rest ih =>
    simp only [List.foldr]
    rcases ih with h0 | hmem
    · rw [h0, Nat.max_zero]
      exact Or.inr (List.mem_cons_self b rest)
    · rcases Nat.le_total b (rest.foldr max 0) with hle | hle
      · rw [Nat.max_eq_right hle]
        exact Or.inr (List.mem_cons_of_mem b hmem)
      · rw [Nat.max_eq_left hle]
        exact Or.inr (List.mem_cons_self b rest)

theorem count_le_maxMultiplicity (l : List Nat) (f : Nat) (h : f ∈ l) :
    l.count f ≤ maxMultiplicity l :=
  le_foldr_max _ _ (List.mem_map_of_mem _ h)

theorem one_le_maxMultiplicity (l : List Nat) (f : Nat) (h : f ∈ l) :
    1 ≤ maxMultiplicity l :=
  le_trans (List.count_pos_iff.mpr h) (count_le_maxMultiplicity l f h)

theorem maxMultiplicity_witness (l : List Nat) (h : l ≠ []) :
    ∃ f ∈ l, maxMultiplicity l = l.count f := by
  rcases foldr_max_mem (l.map fun f => l.count f) with h0 | hmem
  · exfalso
    rcases l with _ | ⟨g, rest⟩
    · exact h rfl
    · have h1 := one_le_maxMultiplicity (g :: rest) g (List.mem_cons_self g rest)
      unfold maxMultiplicity at h1
      omega
  · rcases List.mem_map.mp hmem with ⟨f, hf, hEq⟩
    exact ⟨f, hf, hEq.symm⟩

theorem maxMultiplicity_concat (l : List Nat) (f : Nat) :
    maxMultiplicity (l ++ [f]) = max (maxMultiplicity l) (l.count f + 1) := by
  apply Nat.le_antisymm
  · rcases maxMultiplicity_witness (l ++ [f]) (by simp) with ⟨g, hg, hEq⟩
    rw [hEq]
    by_cases hgf : g = f
    · subst hgf
      have hc : (l ++ [g]).count g = l.count g + 1 := by simp
      rw [hc]
      exact Nat.le_max_right _ _
    · have hc : (l ++ [f]).count g = l.count g := by
        simp [List.count_singleton', Ne.symm hgf]
      have hgl : g ∈ l := by
        rcases List.mem_append.mp hg with hin | hin
        · exact hin
        · simp at hin
          exact absurd hin hgf
      rw [hc]
      exact le_trans (count_le_maxMultiplicity l g hgl) (Nat.le_max_left _ _)
  · apply Nat.max_le.mpr
    constructor
    · by_cases hne : l = []
      · subst hne
        simp [maxMultiplicity]
      · rcases maxMultiplicity_witness l hne with ⟨g, hg, hEq⟩
        rw [hEq]
        have h1 : (l ++ [f]).count g = l.count g + [f].count g :=
          List.count_append _ _ _
        have h2 := count_le_maxMultiplicity (l ++ [f]) g
          (List.mem_append_left _ hg)
        omega
    · have h1 : (l ++ [f]).count f = l.count f + 1 := by simp
      have h2 := count_le_maxMultiplicity (l ++ [f]) f (by simp)
      omega

theorem firstToReach_concat (M : Nat) (l : List Nat) (f : Nat) :
    ∀ seen, firstToReach M seen (l ++ [f])
      = match firstToReach M seen l with
        | some g => some g
        | none => if (seen ++ l).count f + 1 = M then some f else none := by
  induction l with
  | nil =>
    intro seen
    simp only [List.nil_append, firstToReach, List.append_nil]
  | cons a l2 ih =>
    intro seen
    simp only [List.cons_append, firstToReach]
    by_cases h : seen.count a + 1 = M
    · simp [h]
    · simp only [h, if_false, List.append_eq]
      rw [ih (seen ++ [a])]
      have hl : (seen ++ [a]) ++ l2 = seen ++ (a :: l2) := by simp
      rw [hl]

theorem firstToReach_none (M : Nat) (l : List Nat) :
    ∀ seen, (∀ g ∈ l, (seen ++ l).count g < M) →
      firstToReach M seen l = none := by
  induction l with
  | nil => intro seen h; rfl
  | cons a l2 ih =>
    intro seen h
    have ha := h a (List.mem_cons_self a l2)
    have heq1 : (seen ++ a :: l2).count a = seen.count a + (a :: l2).count a :=
      List.count_append _ _ _
    have heq2 : (a :: l2).count a = l2.count a + 1 := by simp
    have hcond : ¬ (seen.count a + 1 = M) := by omega
    simp only [firstToReach, hcond, if_false]
    apply ih (seen ++ [a])
    intro g hg
    have hg2 := h g (List.mem_cons_of_mem a hg)
    have hl : (seen ++ [a]) ++ l2 = seen ++ (a :: l2) := by simp
    rw [hl]
    exact hg2

theorem firstToReach_mem (M : Nat) (l : List Nat) :
    ∀ seen g, firstToReach M seen l = some g → g ∈ l := by
  induction l with
  | nil => intro seen g h; simp [firstToReach] at h
  | cons a l2 ih =>
    intro seen g h
    simp only [firstToReach] at h
    by_cases hc : seen.count a + 1 = M
    · rw [if_pos hc] at h
      injection h with h
      rw [← h]
      exact List.mem_cons_self a l2
    · rw [if_neg hc] at h
      exact List.mem_cons_of_mem a (ih _ _ h)

theorem ratesFind_store_self (l : List (Nat × List Nat)) (k : Nat)
    (v : List Nat) : ratesFind (ratesStore l k v) k = some v := by
  induction l with
  | nil => simp [ratesStore, ratesFind]
  | cons kv rest ih =>
    obtain ⟨k0, w⟩ := kv
    by_cases h : k0 = k
    · simp [ratesStore, h, ratesFind]
    · simp [ratesStore, h, ratesFind, ih]

theorem ratesFind_store_other (l : List (Nat × List Nat)) (k f : Nat)
    (v : List Nat) (h : f ≠ k) :
    ratesFind (ratesStore l k v) f = ratesFind l f := by
  induction l with
  | nil => simp [ratesStore, ratesFind, Ne.symm h]
  | cons kv rest ih =>
    obtain ⟨k0, w⟩ := kv
    by_cases hk : k0 = k
    · subst hk
      simp [ratesStore, ratesFind, Ne.symm h]
    · by_cases hf : k0 = f
      · simp [ratesStore, hk, ratesFind, hf, h]
      · simp [ratesStore, hk, ratesFind, hf, ih]

theorem frames_concat (l : List ResponseTimeFrame) (r : ResponseTimeFrame) :
    frames (l ++ [r]) = frames l ++ [r.FrameIndex] := by
  simp [frames]

theorem frameTTLs_concat (abgtr now : Int) (l : List ResponseTimeFrame)
    (r : ResponseTimeFrame) (f : Nat) :
    frameTTLs abgtr now (l ++ [r]) f
      = frameTTLs abgtr now l f ++
        (if r.FrameIndex = f then [respTTL abgtr now r] else []) := by
  unfold frameTTLs
  rw [List.filter_append]
  by_cases h : r.FrameIndex = f
  · simp [h]
  · simp [h]

theorem frameTTLs_length (abgtr now : Int) (l : List ResponseTimeFrame)
    (f : Nat) : (frameTTLs abgtr now l f).length = (frames l).count f := by
  unfold frameTTLs frames
  induction l with
  | nil => simp
  | cons r rest ih =>
    by_cases h : r.FrameIndex = f
    · simp only [List.filter_cons, List.map_cons, List.count_cons, h]
      simp [ih]
    · simp only [List.filter_cons, List.map_cons, List.count_cons]
      simp [h, ih]

theorem majority_fold_invariant (abgtr now : Int)
    (rs : List ResponseTimeFrame) :
    (∀ f, ratesFind (stateOf abgtr now rs).rates f
        = if f ∈ frames rs then some (frameTTLs abgtr now rs f) else none) ∧
    (stateOf abgtr now rs).topFrameVotesCount = maxMultiplicity (frames rs) ∧
    (rs = [] ∨ some (stateOf abgtr now rs).topFrameIndex
      = firstToReach (maxMultiplicity (frames rs)) [] (frames rs)) := by
  induction rs using List.reverseRecOn with
  | nil =>
    refine ⟨?_, rfl, Or.inl rfl⟩
    intro f
    simp [stateOf, ratesFind, frames]
  | append_singleton l r ih =>
    obtain ⟨ihA, ihB, ihC⟩ := ih
    have hstate : stateOf abgtr now (l ++ [r])
        = processResponseStep abgtr now (stateOf abgtr now l) r := by
      unfold stateOf
      rw [List.foldl_append]
      rfl
    have hTTLnil : r.FrameIndex ∉ frames l →
        frameTTLs abgtr now l r.FrameIndex = [] := by
      intro hnm
      have h1 := frameTTLs_length abgtr now l r.FrameIndex
      have h2 : (frames l).count r.FrameIndex = 0 :=
        List.count_eq_zero.mpr hnm
      rw [h2] at h1
      exact List.length_eq_zero.mp h1
    have hstep : processResponseStep abgtr now (stateOf abgtr now l) r =
        if (frames l).count r.FrameIndex + 1
            > (stateOf abgtr now l).topFrameVotesCount then
          ⟨ratesStore (stateOf abgtr now l).rates r.FrameIndex
            (frameTTLs abgtr now l r.FrameIndex ++ [respTTL abgtr now r]),
            r.FrameIndex, (frames l).count r.FrameIndex + 1⟩
        else
          ⟨ratesStore (stateOf abgtr now l).rates r.FrameIndex
            (frameTTLs abgtr now l r.FrameIndex ++ [respTTL abgtr now r]),
            (stateOf abgtr now l).topFrameIndex,
            (stateOf abgtr now l).topFrameVotesCount⟩ := by
      by_cases hmem : r.FrameIndex ∈ frames l
      · have hfind : ratesFind (stateOf abgtr now l).rates r.FrameIndex
            = some (frameTTLs abgtr now l r.FrameIndex) := by
          rw [ihA r.FrameIndex, if_pos hmem]
        have hlen2 : (frameTTLs abgtr now l r.FrameIndex
            ++ [respTTL abgtr now r]).length
            = (frames l).count r.FrameIndex + 1 := by
          simp [frameTTLs_length]
        unfold processResponseStep
        simp only [hfind]
        rw [hlen2]
      · have hfind : ratesFind (stateOf abgtr now l).rates r.FrameIndex
            = none := by
          rw [ihA r.FrameIndex, if_neg hmem]
        have hnil2 := hTTLnil hmem
        have hcnt0 : (frames l).count r.FrameIndex = 0 :=
          List.count_eq_zero.mpr hmem
        unfold processResponseStep
        simp only [hfind]
        rw [hnil2, hcnt0]
        simp only [List.nil_append, Nat.zero_add]
    rw [hstate, hstep]
    have hA2 : ∀ f,
        ratesFind (ratesStore (stateOf abgtr now l).rates r.FrameIndex
          (frameTTLs abgtr now l r.FrameIndex ++ [respTTL abgtr now r])) f
        = if f ∈ frames (l ++ [r])
          then some (frameTTLs abgtr now (l ++ [r]) f) else none := by
      intro f
      by_cases hf : f = r.FrameIndex
      · subst hf
        rw [ratesFind_store_self, frames_concat, if_pos (by simp),
          frameTTLs_concat, if_pos rfl]
      · rw [ratesFind_store_other _ _ _ _ hf, ihA f, frames_concat,
          frameTTLs_concat, if_neg (Ne.symm hf), List.append_nil]
        by_cases hfl : f ∈ frames l
        · rw [if_pos hfl, if_pos (by simp [hfl])]
        · rw [if_neg hfl, if_neg (by simp [hfl, hf])]
    by_cases hcmp : (frames l).count r.FrameIndex + 1
        > (stateOf abgtr now l).topFrameVotesCount
    · rw [if_pos hcmp]
      rw [ihB] at hcmp
      have hmaxeq : maxMultiplicity (frames (l ++ [r]))
          = (frames l).count r.FrameIndex + 1 := by
        rw [frames_concat, maxMultiplicity_concat,
          Nat.max_eq_right (by omega)]
      refine ⟨hA2, ?_, Or.inr ?_⟩
      · rw [hmaxeq]
      · rw [hmaxeq, frames_concat, firstToReach_concat]
        have hnone : firstToReach ((frames l).count r.FrameIndex + 1) []
            (frames l) = none := by
          apply firstToReach_none
          intro g hg
          simp only [List.nil_append]
          have := count_le_maxMultiplicity (frames l) g hg
          omega
        simp only [hnone]
        rw [if_pos (by simp)]
    · rw [if_neg hcmp]
      rw [ihB] at hcmp
      have hmaxeq : maxMultiplicity (frames (l ++ [r]))
          = maxMultiplicity (frames l) := by
        rw [frames_concat, maxMultiplicity_concat, Nat.max_eq_left (by omega)]
      have hlne : l ≠ [] := by
        intro hnil
        subst hnil
        simp [frames, maxMultiplicity] at hcmp
      refine ⟨hA2, ?_, Or.inr ?_⟩
      · rw [hmaxeq]
        exact ihB
      · rw [hmaxeq, frames_concat, firstToReach_concat]
        rcases ihC with hnil | hsome
        · exact absurd hnil hlne
        · rw [← hsome]

/-- C3 (amended). For every non-empty collection of at most ObserversMaxCount
inbound frame-sync responses, each carrying a frame index below
ObserversMaxCount, processMajorityOfFrameResponses groups the responses by
frame index with corrected_ns_left = interval + nanoseconds_left -
(now - received_at) per response, selects the group of largest cardinality -
ties broken in favour of the group that FIRST REACHES the winning cardinality
in arrival order (not the first-seen frame index) - returns the average
corrected_ns_left of that group as the next-frame offset together with the
response count, and increments the frame index by one (wrapping at
ObserversMaxCount) exactly when that offset exceeds one block-generation
interval. -/
theorem processMajorityOfFrameResponses_spec (abgtr now : Int)
    (rs : List ResponseTimeFrame) (hne : rs ≠ [])
    (hlen : rs.length ≤ ObserversMaxCount)
    (hfr : ∀ r ∈ rs, r.FrameIndex < ObserversMaxCount) :
    processMajorityOfFrameResponses abgtr now rs
      = .ok ((specNextFrame abgtr now rs).1, (specNextFrame abgtr now rs).2,
          rs.length) := by
  obtain ⟨hA, hB, hC⟩ := majority_fold_invariant abgtr now rs
  rcases hC with rfl | hC
  · exact absurd rfl hne
  have hmod : rs.length % 65536 = rs.length := by
    apply Nat.mod_eq_of_lt
    unfold ObserversMaxCount at hlen
    omega
  have hnz : ¬ (rs.length = 0) := by
    intro h0
    exact hne (List.length_eq_zero.mp h0)
  have htop_mem : (stateOf abgtr now rs).topFrameIndex ∈ frames rs :=
    firstToReach_mem _ _ _ _ hC.symm
  have htoplt : (stateOf abgtr now rs).topFrameIndex < ObserversMaxCount := by
    rcases List.mem_map.mp htop_mem with ⟨r, hr, hEq⟩
    rw [← hEq]
    exact hfr r hr
  have hm : ratesFind (stateOf abgtr now rs).rates
      (stateOf abgtr now rs).topFrameIndex
      = some (frameTTLs abgtr now rs (stateOf abgtr now rs).topFrameIndex) := by
    rw [hA _, if_pos htop_mem]
  have hspec_top : specTopFrame rs = (stateOf abgtr now rs).topFrameIndex := by
    unfold specTopFrame
    rw [← hC]
    rfl
  simp only [processMajorityOfFrameResponses, hmod, hnz, if_false,
    List.take_length, hm, Option.getD_some, specNextFrame, hspec_top]
  unfold ObserversMaxCount at htoplt
  by_cases havg : processMajorityAndCalculateAverageNextFrameTTL
      (frameTTLs abgtr now rs (stateOf abgtr now rs).topFrameIndex)
      > toUInt64 abgtr
  · simp only [havg, if_true]
    have h1 : ((stateOf abgtr now rs).topFrameIndex + 1) % 65536
        = (stateOf abgtr now rs).topFrameIndex + 1 :=
      Nat.mod_eq_of_lt (by omega)
    rw [h1]
    by_cases h2 : (stateOf abgtr now rs).topFrameIndex + 1 ≥ ObserversMaxCount
    · rw [if_pos h2]
      unfold ObserversMaxCount at h2 ⊢
      have h3 : (stateOf abgtr now rs).topFrameIndex + 1 = 1024 := by omega
      rw [h3, Nat.mod_self]
    · rw [if_neg h2]
      unfold ObserversMaxCount at h2 ⊢
      rw [Nat.mod_eq_of_lt (by omega)]
  · simp only [havg, if_false]
    have h1 : ((stateOf abgtr now rs).topFrameIndex + 0) % 65536
        = (stateOf abgtr now rs).topFrameIndex :=
      Nat.mod_eq_of_lt (by omega)
    rw [h1]
    rw [if_neg (by unfold ObserversMaxCount; omega)]

/-- A single response: frame 3, a second left, received at the origin. -/
def c3wit : List ResponseTimeFrame := [⟨3, 1000, 0⟩]

/-- C3 witness: the single-response collection satisfies the amended
description. -/
theorem processMajorityOfFrameResponses_spec_witness :
    processMajorityOfFrameResponses 100 0 c3wit
      = .ok ((specNextFrame 100 0 c3wit).1, (specNextFrame 100 0 c3wit).2,
          c3wit.length) :=
  processMajorityOfFrameResponses_spec 100 0 c3wit (by decide) (by decide)
    (by decide)

end GNS
